import Mathlib

/-!
# Verification of the order-book connector scripts

Shallow embedding of the four venue scripts (`binance20.js`, `kucoin50.js`,
`bitmex25.js` and the Kraken script) of the Connectors repository.

Conventions of the embedding:
* JS numbers that hold prices and sizes are modelled by `ℚ` (the scripts only
  multiply, divide and compare them); JS strings stay `String`.
* JS `Array.prototype.sort` with the numeric comparators
  `(a, b) => a.key - b.key` / `(a, b) => b.key - a.key` is modelled by the
  stable insertion sort of Mathlib over the relation induced by the key.
* JS division, whose result at divisor 0 is the non-finite `Infinity`/`NaN`,
  is modelled by an `Option ℚ` that is `none` exactly at divisor 0.
* Mutation of the global order book becomes explicit state passing; a handler
  that would throw reports `crashed := true` instead of a new state.

The file first gives all definitions, then the lemmas and the theorems about
them.
-/

namespace Connectors

section KeySort

variable {α : Type}

/-- The order induced on `α` by a rational key `f`: ascending when `asc` is
`true`, descending otherwise.  This models the JS comparators
`(a, b) => a.key - b.key` and `(a, b) => b.key - a.key`. -/
def keyRel (f : α → ℚ) (asc : Bool) : α → α → Prop :=
  fun a b => if asc then f a ≤ f b else f b ≤ f a

instance (f : α → ℚ) (asc : Bool) : DecidableRel (keyRel f asc) := fun a b => by
  unfold keyRel; exact if h : asc then by simp [h]; infer_instance else by simp [h]; infer_instance

instance (f : α → ℚ) (asc : Bool) : IsTotal α (keyRel f asc) :=
  ⟨fun a b => by unfold keyRel; cases asc <;> simp <;> exact le_total _ _⟩

instance (f : α → ℚ) (asc : Bool) : IsTrans α (keyRel f asc) :=
  ⟨fun a b c hab hbc => by
    unfold keyRel at hab hbc ⊢
    cases asc
    · simp only [if_neg Bool.false_ne_true] at hab hbc ⊢
      exact le_trans hbc hab
    · simp only [if_pos rfl] at hab hbc ⊢
      exact le_trans hab hbc⟩

/-- Pairwise-distinct keys: the data-model invariant "at most one level per
distinct price". -/
def distinctKeys (f : α → ℚ) (l : List α) : Prop :=
  l.Pairwise fun a b => f a ≠ f b

instance (f : α → ℚ) [DecidableEq α] (l : List α) : Decidable (distinctKeys f l) := by
  unfold distinctKeys; infer_instance

/-- Strict version of `keyRel`: strictly ascending (resp. descending) keys. -/
def strictKeyRel (f : α → ℚ) (asc : Bool) : α → α → Prop :=
  fun a b => if asc then f a < f b else f b < f a

end KeySort

/-- JS division: the result is non-finite (`Infinity` or `NaN`, modelled as
`none`) exactly when the divisor is `0`; no exception is ever raised. -/
def jsDiv (a b : ℚ) : Option ℚ := if b = 0 then none else some (a / b)

/-- First value stored under a price key (JS property access / `find`). -/
def priceLookup (p : ℚ) : List (ℚ × String) → Option String
  | [] => none
  | e :: rest => if e.1 = p then some e.2 else priceLookup p rest

/-! ## Binance (`binance20.js`)

Price-keyed book kept as one flat array of `{price, quantity, side}` objects;
`side` is `'Buy'` or `'Sell'`, and both price and quantity arrive as strings.
The price string takes part only in numeric comparisons (`findIndex` equality
and the sort comparator), so it is modelled as `ℚ`; the quantity string takes
part in the exact string comparison against the zero sentinel, so it stays a
`String`. -/

namespace Binance

structure Order where
  price : ℚ
  quantity : String
  side : String
deriving DecidableEq, Repr

/-- The deletion sentinel of the Binance depth stream (`'0.00000000'`). -/
def zeroSentinel : String := "0.00000000"

/-- One iteration of the update loops of `handleOrderBook`
(binance20.js lines 109-136): `findIndex` on an exact price-and-side match,
`splice` of the first match when the quantity is the zero sentinel, in-place
overwrite of `quantity` when the price is present, `push` to the end of the
array otherwise. -/
def applyChange (sd : String) (p : ℚ) (q : String) : List Order → List Order
  | [] => if q = zeroSentinel then [] else [⟨p, q, sd⟩]
  | o :: rest =>
    if o.price = p ∧ o.side = sd then
      if q = zeroSentinel then rest else ⟨o.price, q, o.side⟩ :: rest
    else
      o :: applyChange sd p q rest

/-- The whole `for (const bid of message.bids)` / `for (const ask of
message.asks)` pass of `handleOrderBook`. -/
def applySide (sd : String) (changes : List (ℚ × String)) (book : List Order) : List Order :=
  changes.foldl (fun b c => applyChange sd c.1 c.2 b) book

/-- `handleOrderBook` on a well-formed depth message: all bid changes, then
all ask changes (binance20.js lines 101-140). -/
def handleMsg (bids asks : List (ℚ × String)) (book : List Order) : List Order :=
  applySide "Sell" asks (applySide "Buy" bids book)

/-- The initial REST snapshot (binance20.js lines 65-78): all bids pushed,
then all asks. -/
def snapshotBook (bids asks : List (ℚ × String)) : List Order :=
  bids.map (fun c => ⟨c.1, c.2, "Buy"⟩) ++ asks.map (fun c => ⟨c.1, c.2, "Sell"⟩)

/-- `insertOrderBookToDB`'s projection of one side (binance20.js lines
150-151): `filter` by side, `sort` by price (ascending comparator for asks,
descending for bids), `slice(0, cfgNumLevels)`. -/
def projectSide (sd : String) (asc : Bool) (n : Nat) (book : List Order) : List Order :=
  ((book.filter fun o => o.side == sd).insertionSort (keyRel Order.price asc)).take n

def projectAsks (n : Nat) (book : List Order) : List Order := projectSide "Sell" true n book

def projectBids (n : Nat) (book : List Order) : List Order := projectSide "Buy" false n book

/-- The snapshot followed by a stream of depth messages, each a list of bid
changes and a list of ask changes. -/
def runStream (bids asks : List (ℚ × String))
    (msgs : List (List (ℚ × String) × List (ℚ × String))) : List Order :=
  msgs.foldl (fun b m => handleMsg m.1 m.2 b) (snapshotBook bids asks)

/-- Book invariant: within one side, at most one entry per price. -/
def goodBook (book : List Order) : Prop :=
  book.Pairwise fun a b => a.side = b.side → a.price ≠ b.price

instance (book : List Order) : Decidable (goodBook book) := by
  unfold goodBook; infer_instance

/-- The volume switch of `insertOrderBookToDB` (binance20.js lines 157-196):
with `baseVolume = true` the quantity is kept (base is Binance's native unit),
with `baseVolume = false` it is multiplied by the price. -/
def volume (flag : Bool) (price qty : ℚ) : ℚ :=
  if flag then qty else price * qty

/-- First stored quantity for a price on a side (the `findIndex` view of the
book). -/
def sideLookup (sd : String) (p : ℚ) : List Order → Option String
  | [] => none
  | o :: rest => if o.price = p ∧ o.side = sd then some o.quantity else sideLookup sd p rest

/-- A raw wire message as `handleOrderBook` receives it: the handler reads
`message.bids` and `message.asks` without any check, so both fields may be
absent (`none`, JS `undefined`). -/
structure WireMsg where
  bids : Option (List (ℚ × String))
  asks : Option (List (ℚ × String))

/-- Result of one `handleOrderBook` call.  `crashed = true` models the
`TypeError` thrown by `for (const bid of message.bids)` when the field is not
iterable: the exception propagates out of the message listener, nothing is
logged and no insertion happens. -/
structure Outcome where
  book : List Order
  emitted : Bool
  crashed : Bool
deriving DecidableEq, Repr

/-- `handleOrderBook` on an arbitrary wire message (binance20.js lines
101-140): there is no recognition check, the bid loop runs first, then the ask
loop, then `insertOrderBookToDB` is called. -/
def handleWire (book : List Order) (m : WireMsg) : Outcome :=
  match m.bids with
  | none => ⟨book, false, true⟩
  | some bs =>
    match m.asks with
    | none => ⟨applySide "Buy" bs book, false, true⟩
    | some as2 => ⟨handleMsg bs as2 book, true, false⟩

end Binance

/-! ## Kucoin (`kucoin50.js`)

Price-keyed book, one list of `[price, size]` string pairs per side.  The
deletion sentinel is the exact string `"0"`.  After every single change the
side is re-sorted and truncated to the hard-coded 50 (kucoin50.js line 141);
`insertOrderBooktoDB` then emits one row per retained level without consulting
`cfgNumLevels`. -/

namespace Kucoin

abbrev Level := ℚ × String

/-- The non-sentinel branch of kucoin50.js lines 135-137: `find` the first
level with this price and overwrite its size in place, else `push` a new
level. -/
def upsert (p : ℚ) (s : String) : List Level → List Level
  | [] => [(p, s)]
  | l :: rest => if l.1 = p then (l.1, s) :: rest else l :: upsert p s rest

/-- In-place overwrite of the first level at a price (the `find` branch of the
upsert alone, with no push): the denotation of `existingLevel[1] = size`. -/
def setFirst (p : ℚ) (s : String) : List Level → List Level
  | [] => []
  | l :: rest => if l.1 = p then (l.1, s) :: rest else l :: setFirst p s rest

/-- kucoin50.js line 141: `sort` by price (ascending for asks, descending for
bids) and `slice(0, 50)` — the bound is the literal 50, not
`cfgNumLevels`. -/
def sortTrunc (asc : Bool) (levels : List Level) : List Level :=
  (levels.insertionSort (keyRel Prod.fst asc)).take 50

/-- One change from `message.data.changes` (kucoin50.js lines 125-143):
`filter` away every level at the price when the size is exactly `"0"`,
otherwise upsert; then re-sort and truncate. -/
def applyChange (asc : Bool) (levels : List Level) (p : ℚ) (s : String) : List Level :=
  sortTrunc asc (if s = "0" then levels.filter (fun l => decide (l.1 ≠ p)) else upsert p s levels)

def applySide (asc : Bool) (levels : List Level) (changes : List Level) : List Level :=
  changes.foldl (fun ls c => applyChange asc ls c.1 c.2) levels

/-- A persisted row of `insertOrderBooktoDB`: `order_level`, `order_type`
(the literal side label), price, and the raw size string as volume. -/
structure KRow where
  level : Nat
  otype : String
  price : ℚ
  volume : String
deriving DecidableEq, Repr

/-- The `forEach((order, index) => ...)` loop of `insertOrderBooktoDB`
(kucoin50.js lines 160-165): one row per element of the stored side, level
`index + 1`, with no truncation to `cfgNumLevels`. -/
def sideRowsFrom (label : String) : Nat → List Level → List KRow
  | _, [] => []
  | i, l :: rest => ⟨i + 1, label, l.1, l.2⟩ :: sideRowsFrom label (i + 1) rest

/-- All rows of one insertion: bids first, then asks. -/
def bookRows (bids asks : List Level) : List KRow :=
  sideRowsFrom "bids" 0 bids ++ sideRowsFrom "asks" 0 asks

structure KBook where
  asks : List Level
  bids : List Level
deriving DecidableEq, Repr

/-- A parsed wire message: `message.type`, `message.subject` and the two
change lists of `message.data.changes`. -/
structure KMsg where
  mtype : String
  subject : String
  askChanges : List Level
  bidChanges : List Level

/-- `handleOrderBook` (kucoin50.js lines 117-147): only messages with
`type === 'message'` and `subject === 'trade.l2update'` are processed (asks
first, then bids, as in the `["asks", "bids"[]].forEach`), and only then is
`insertOrderBooktoDB` called; any other message falls through silently. -/
def handleMsg (book : KBook) (m : KMsg) : KBook × Option (List KRow) :=
  if m.mtype = "message" ∧ m.subject = "trade.l2update" then
    let asks := applySide true book.asks m.askChanges
    let bids := applySide false book.bids m.bidChanges
    (⟨asks, bids⟩, some (bookRows bids asks))
  else (book, none)

end Kucoin

/-! ## Kraken (the unnamed script `src/unnamed/part_000`)

Price-keyed book kept as one JS object per side mapping the price string to
the volume string (`_.fromPairs`).  An object is an insertion-ordered map with
unique keys: it is modelled as an association list; assignment overwrites in
place or appends, `delete` removes the key, `delete` of an absent key is a
no-op.  The deletion sentinel is the exact string `"0.00000000"`. -/

namespace Kraken

abbrev Entry := ℚ × String

abbrev Book := List Entry

/-- Object assignment `orderbook.side[price] = volume`: overwrite in place if
the key exists, append otherwise. -/
def kset (p : ℚ) (v : String) : Book → Book
  | [] => [(p, v)]
  | e :: rest => if e.1 = p then (e.1, v) :: rest else e :: kset p v rest

/-- `delete orderbook.side[price]`: remove the key, no-op when absent. -/
def kdel (p : ℚ) : Book → Book
  | [] => []
  | e :: rest => if e.1 = p then rest else e :: kdel p rest

def zeroSentinel : String := "0.00000000"

/-- One `[price, volume]` update (part_000 lines 117-144): delete on the
exact sentinel, assign otherwise. -/
def applyChange (b : Book) (c : Entry) : Book :=
  if c.2 = zeroSentinel then kdel c.1 b else kset c.1 c.2 b

/-- `_.fromPairs` (part_000 lines 107-110): build the object left to right, a
later pair with the same key overwriting the earlier one. -/
def fromPairs (l : List Entry) : Book :=
  l.foldl (fun m e => kset e.1 e.2 m) []

/-- The ordered view of one side: `_.orderBy(_.toPairs(side), parseFloat,
asc/desc)` (part_000 lines 150-153) followed by the `slice(0, cfgNumLevels)`
of `insertOrderBookToDB` (lines 169 and 187). -/
def projectSide (asc : Bool) (n : Nat) (b : Book) : List Entry :=
  (b.insertionSort (keyRel Prod.fst asc)).take n

/-- One side of the book after the snapshot and a stream of updates. -/
def runSide (snap : List Entry) (evts : List Entry) : Book :=
  evts.foldl applyChange (fromPairs snap)

/-- The volume switch of `insertOrderBookToDB` (part_000 lines 169-203):
volume is kept with `baseVolume = true` (base is Kraken's native unit) and
multiplied by the price with `baseVolume = false`. -/
def volume (flag : Bool) (price vol : ℚ) : ℚ :=
  if flag then vol else vol * price

end Kraken

/-! ## BitMEX (`bitmex25.js`)

Id-keyed book: one flat array of `{id, side, price, size}` objects.  Updates
arrive as `{table, action, data}` messages; `insert` pushes unconditionally,
`update` merges the supplied fields into the first order with the id,
`delete` splices the first order with the id.  `insertOrderBookToDB` dedups on
`JSON.stringify` of the whole raw book against the last inserted book. -/

namespace Bitmex

structure Order where
  id : Nat
  side : String
  price : ℚ
  size : ℚ
deriving DecidableEq, Repr

/-- An element of `message.data`: the id plus whichever fields the venue
supplied (`none` models an absent JS field). -/
structure Patch where
  id : Nat
  side : Option String
  price : Option ℚ
  size : Option ℚ
deriving DecidableEq, Repr

/-- The object spread `{...orderBook[index], ...update}` of bitmex25.js line
134: fields present in the patch win. -/
def mergePatch (o : Order) (u : Patch) : Order :=
  ⟨u.id, u.side.getD o.side, u.price.getD o.price, u.size.getD o.size⟩

/-- A raw `data` element read as a full order (used by the `partial` and
`insert` actions, which push the object as-is; an absent field would be JS
`undefined` and is modelled by the neutral default). -/
def patchOrder (u : Patch) : Order :=
  ⟨u.id, u.side.getD "", u.price.getD 0, u.size.getD 0⟩

/-- `action === 'insert'` (bitmex25.js lines 126-127): an unconditional
`push`, with no duplicate-id check. -/
def applyInsert (book : List Order) (o : Order) : List Order := book ++ [o]

/-- `action === 'update'` (bitmex25.js lines 128-135): `findIndex` on the id,
merge into the first match, no-op when absent. -/
def applyUpdate (u : Patch) : List Order → List Order
  | [] => []
  | o :: rest => if o.id = u.id then mergePatch o u :: rest else o :: applyUpdate u rest

/-- `action === 'delete'` (bitmex25.js lines 136-144): `findIndex` on the id,
`splice` the first match, no-op when absent. -/
def applyDelete (i : Nat) : List Order → List Order
  | [] => []
  | o :: rest => if o.id = i then rest else o :: applyDelete i rest

/-- The volume switch of `insertOrderBookToDB` (bitmex25.js lines 173-212):
size is BitMEX's native quote volume; with `baseVolume = true` it is divided
by the price (JS division, non-finite at price 0), with `baseVolume = false`
it is kept. -/
def volume (flag : Bool) (price size : ℚ) : Option ℚ :=
  if flag then jsDiv size price else some size

/-- A persisted row: `order_level`, `order_type` (`'Bid'`/`'Ask'`), price and
converted volume.  The volume is `none` when the JS value would be
non-finite. -/
structure Row where
  level : Nat
  otype : String
  price : ℚ
  volume : Option ℚ
deriving DecidableEq, Repr

/-- The `for (const [i, order] of side.slice(0, cfgNumLevels).entries())`
loops of `insertOrderBookToDB`: one row per projected order, level
`i + 1`. -/
def rowsFrom (label : String) (flag : Bool) : Nat → List Order → List Row
  | _, [] => []
  | i, o :: rest =>
    ⟨i + 1, label, o.price, volume flag o.price o.size⟩ :: rowsFrom label flag (i + 1) rest

/-- One side of the rendered projection (bitmex25.js lines 168-219): filter
by side, sort by price, truncate to `cfgNumLevels`, convert volumes. -/
def sideRows (sd label : String) (asc : Bool) (flag : Bool) (n : Nat)
    (book : List Order) : List Row :=
  rowsFrom label flag 0
    (((book.filter fun o => o.side == sd).insertionSort (keyRel Order.price asc)).take n)

/-- All rows of one insertion: bids (descending) first, then asks
(ascending). -/
def bookRows (flag : Bool) (n : Nat) (book : List Order) : List Row :=
  sideRows "Buy" "Bid" false flag n book ++ sideRows "Sell" "Ask" true flag n book

/-- The dedup check of `insertOrderBookToDB` (bitmex25.js lines 159-162):
`JSON.stringify(orderBook) === JSON.stringify(lastInsertedOrderBook)`.
`lastInsertedOrderBook` starts out `undefined` (`none`), in which case the
stringified values never match. -/
def sameAsLast : Option (List Order) → List Order → Bool
  | none, _ => false
  | some prev, book => decide (book = prev)

/-- `true` exactly when the insertion is not skipped; on emission the raw book
becomes the new `lastInsertedOrderBook` (line 165). -/
def shouldEmit (last : Option (List Order)) (book : List Order) : Bool :=
  !(sameAsLast last book)

/-- Number of orders in the book carrying a given id. -/
def countId (book : List Order) (i : Nat) : Nat :=
  (book.filter fun o => o.id == i).length

/-- A parsed wire message. -/
structure MMsg where
  table : String
  action : String
  data : List Patch

/-- `handleOrderBook` (bitmex25.js lines 105-149): only messages with
`table === 'orderBookL2_25'` are processed (`partial` replaces the book, any
other action folds the per-element branches over `data`) and followed by an
insertion attempt; any other message falls through silently.  The second
component tells whether `insertOrderBookToDB` was invoked. -/
def handleMsg (book : List Order) (m : MMsg) : List Order × Bool :=
  if m.table = "orderBookL2_25" then
    if m.action = "partial" then (m.data.map patchOrder, true)
    else
      (m.data.foldl (fun b u =>
        if m.action = "insert" then applyInsert b (patchOrder u)
        else if m.action = "update" then applyUpdate u b
        else if m.action = "delete" then applyDelete u.id b
        else b) book, true)
  else (book, false)

end Bitmex

/-- The `VolumeNormalizer` contract in the spec's own words (§4.4), written
for comparison with the per-venue `volume` functions taken from the source:
`normalize(price, size, nativeUnit, wantBase)` keeps the size when the native
unit already is the wanted one, multiplies by the price from base to quote,
and divides by the price from quote to base. -/
def normalizeSpec (price size : ℚ) (nativeBase wantBase : Bool) : Option ℚ :=
  if nativeBase = wantBase then some size
  else if nativeBase then some (size * price)
  else jsDiv size price

/-! Concrete data for counterexamples and witnesses. -/

namespace Demo

/-- A one-ask BitMEX book. -/
def mexBook1 : List Bitmex.Order := [⟨1, "Sell", 100, 1⟩]

/-- The same book after a second ask beyond the first level. -/
def mexBook2 : List Bitmex.Order := [⟨1, "Sell", 100, 1⟩, ⟨2, "Sell", 101, 1⟩]

/-- A BitMEX book whose best ask has price 0. -/
def mexZeroPrice : List Bitmex.Order := [⟨1, "Sell", 0, 5⟩, ⟨2, "Sell", 10, 5⟩]

/-- A Kucoin ask side holding two levels, built by two upserts. -/
def kcTwoAsks : List Kucoin.Level :=
  Kucoin.applyChange true (Kucoin.applyChange true [] 1 "1") 2 "1"

/-- A one-bid Binance book. -/
def binSmall : List Binance.Order := [⟨100, "1", "Buy"⟩]

/-- A one-level Kucoin side. -/
def kcOne : List Kucoin.Level := [(3, "2")]

/-- A one-key Kraken side. -/
def krOne : Kraken.Book := [(5, "1")]

end Demo

/-!
## Lemmas and theorems

First the generic facts about key-sorted lists, then the per-venue book
lemmas, then the claim theorems C1-C10 with their witnesses and
counterexamples.
-/

section KeySortLemmas

variable {α : Type}

theorem keyRel_key_eq {f : α → ℚ} {asc : Bool} {a b : α}
    (h1 : keyRel f asc a b) (h2 : keyRel f asc b a) : f a = f b := by
  unfold keyRel at h1 h2
  cases asc
  · simp at h1 h2; exact le_antisymm h2 h1
  · simp at h1 h2; exact le_antisymm h1 h2

theorem strictKeyRel_of_ne {f : α → ℚ} {asc : Bool} {a b : α}
    (h : keyRel f asc a b ∧ f a ≠ f b) : strictKeyRel f asc a b := by
  unfold keyRel at h
  unfold strictKeyRel
  cases asc
  · simp at h ⊢; exact lt_of_le_of_ne h.1 (Ne.symm h.2)
  · simp at h ⊢; exact lt_of_le_of_ne h.1 h.2

theorem distinctKeys_perm {f : α → ℚ} {l₁ l₂ : List α} (hp : l₁.Perm l₂)
    (hd : distinctKeys f l₁) : distinctKeys f l₂ :=
  (hp.pairwise_iff fun h => (Ne.symm h)).mp hd

theorem distinctKeys_sublist {f : α → ℚ} {l₁ l₂ : List α} (hs : l₁.Sublist l₂)
    (hd : distinctKeys f l₂) : distinctKeys f l₁ :=
  hd.sublist hs

/-- Two lists that are permutations of each other, both sorted by the key,
with pairwise-distinct keys, are equal: sorting by a duplicate-free key
determines the list. -/
theorem eq_of_perm_of_sorted_distinct {f : α → ℚ} {asc : Bool} {l₁ l₂ : List α}
    (hp : l₁.Perm l₂) (h₁ : l₁.Sorted (keyRel f asc)) (h₂ : l₂.Sorted (keyRel f asc))
    (hd : distinctKeys f l₁) : l₁ = l₂ := by
  have hd₂ : distinctKeys f l₂ := distinctKeys_perm hp hd
  haveI : IsAntisymm α (fun a b => keyRel f asc a b ∧ f a ≠ f b) :=
    ⟨fun a b hab hba => absurd (keyRel_key_eq hab.1 hba.1) hab.2⟩
  exact List.eq_of_perm_of_sorted hp (h₁.and hd) (h₂.and hd₂)

/-- Sorting a sorted list with one fresh element appended just inserts that
element in order. -/
theorem insertionSort_append_singleton {f : α → ℚ} {asc : Bool} {l : List α} {x : α}
    (hs : l.Sorted (keyRel f asc)) (hd : distinctKeys f l) (hx : ∀ a ∈ l, f a ≠ f x) :
    (l ++ [x]).insertionSort (keyRel f asc) = l.orderedInsert (keyRel f asc) x := by
  have hdapp : distinctKeys f (l ++ [x]) := by
    unfold distinctKeys
    rw [List.pairwise_append]
    refine ⟨hd, List.pairwise_singleton _ _, ?_⟩
    intro a ha b hb
    rw [List.mem_singleton] at hb
    subst hb
    exact hx a ha
  refine eq_of_perm_of_sorted_distinct ?_ (List.sorted_insertionSort _ _) (hs.orderedInsert x l) ?_
  · exact (List.perm_insertionSort _ _).trans
      ((List.perm_append_singleton x l).trans (List.perm_orderedInsert _ x l).symm)
  · exact distinctKeys_perm (List.perm_insertionSort _ _).symm hdapp

/-- Truncating after an ordered insertion either keeps the inserted element or
returns the original list (the element was pushed past the cut). -/
theorem take_orderedInsert_cases (r : α → α → Prop) [DecidableRel r] (x : α) :
    ∀ (l : List α) (n : Nat), l.length ≤ n →
      x ∈ (l.orderedInsert r x).take n ∨ (l.orderedInsert r x).take n = l := by
  intro l
  induction l with
  | nil =>
    intro n _
    cases n with
    | zero => right; rfl
    | succ m => left; simp [List.orderedInsert]
  | cons e rest ih =>
    intro n hn
    cases n with
    | zero => exact absurd hn (by simp)
    | succ m =>
      simp only [List.orderedInsert]
      by_cases hre : r x e
      · left; simp [hre]
      · rw [if_neg hre]
        have hm : rest.length ≤ m := by simpa using hn
        rcases ih m hm with h | h
        · left
          simp only [List.take_succ_cons, List.mem_cons]
          exact Or.inr h
        · right
          simp [List.take_succ_cons, h]

/-- Sorting by the key and truncating (the `sort` + `slice` projection pattern
of the scripts) yields a list that is strictly sorted by the key as soon as
the input has pairwise-distinct keys, and never holds more than `n`
entries. -/
theorem sortTake_strict_sorted {f : α → ℚ} {asc : Bool} {l : List α}
    (hd : distinctKeys f l) (n : Nat) :
    ((l.insertionSort (keyRel f asc)).take n).Pairwise (strictKeyRel f asc) ∧
    ((l.insertionSort (keyRel f asc)).take n).length ≤ n := by
  constructor
  · have hsorted : (l.insertionSort (keyRel f asc)).Pairwise (keyRel f asc) :=
      List.sorted_insertionSort (keyRel f asc) l
    have hdist : distinctKeys f (l.insertionSort (keyRel f asc)) :=
      distinctKeys_perm (List.perm_insertionSort _ l).symm hd
    exact (((hsorted.and hdist).sublist (List.take_sublist n _)).imp
      fun h => strictKeyRel_of_ne h)
  · exact List.length_take_le n _

end KeySortLemmas

namespace Binance

theorem mem_applyChange {sd : String} {p : ℚ} {q : String} {book : List Order} {o : Order}
    (h : o ∈ applyChange sd p q book) : o ∈ book ∨ (o.price = p ∧ o.side = sd) := by
  induction book with
  | nil =>
    unfold applyChange at h
    by_cases hq : q = zeroSentinel
    · simp [hq] at h
    · rw [if_neg hq] at h
      rw [List.mem_singleton] at h
      subst h
      exact Or.inr ⟨rfl, rfl⟩
  | cons e rest ih =>
    unfold applyChange at h
    by_cases he : e.price = p ∧ e.side = sd
    · rw [if_pos he] at h
      by_cases hq : q = zeroSentinel
      · rw [if_pos hq] at h
        exact Or.inl (List.mem_cons_of_mem e h)
      · rw [if_neg hq, List.mem_cons] at h
        rcases h with h | h
        · subst h
          exact Or.inr ⟨he.1, he.2⟩
        · exact Or.inl (List.mem_cons_of_mem e h)
    · rw [if_neg he, List.mem_cons] at h
      rcases h with h | h
      · exact Or.inl (h ▸ List.mem_cons_self e rest)
      · rcases ih h with h' | h'
        · exact Or.inl (List.mem_cons_of_mem e h')
        · exact Or.inr h'

theorem goodBook_applyChange (sd : String) (p : ℚ) (q : String) {book : List Order}
    (h : goodBook book) : goodBook (applyChange sd p q book) := by
  induction book with
  | nil =>
    unfold applyChange goodBook
    by_cases hq : q = zeroSentinel
    · simp [hq]
    · rw [if_neg hq]
      exact List.pairwise_singleton _ _
  | cons e rest ih =>
    unfold goodBook at h
    rw [List.pairwise_cons] at h
    obtain ⟨h1, h2⟩ := h
    unfold applyChange
    by_cases he : e.price = p ∧ e.side = sd
    · rw [if_pos he]
      by_cases hq : q = zeroSentinel
      · rw [if_pos hq]; exact h2
      · rw [if_neg hq]
        unfold goodBook
        rw [List.pairwise_cons]
        exact ⟨h1, h2⟩
    · rw [if_neg he]
      unfold goodBook
      rw [List.pairwise_cons]
      refine ⟨?_, ih h2⟩
      intro b hb hside
      rcases mem_applyChange hb with hb' | hb'
      · exact h1 b hb' hside
      · intro hpe
        exact he ⟨hpe.trans hb'.1, hside.trans hb'.2⟩

theorem goodBook_applySide (sd : String) (changes : List (ℚ × String)) {book : List Order}
    (h : goodBook book) : goodBook (applySide sd changes book) := by
  induction changes generalizing book with
  | nil => exact h
  | cons c rest ih => exact ih (goodBook_applyChange sd c.1 c.2 h)

theorem goodBook_handleMsg (bids asks : List (ℚ × String)) {book : List Order}
    (h : goodBook book) : goodBook (handleMsg bids asks book) :=
  goodBook_applySide _ _ (goodBook_applySide _ _ h)

theorem goodBook_foldl (msgs : List (List (ℚ × String) × List (ℚ × String)))
    {book : List Order} (h : goodBook book) :
    goodBook (msgs.foldl (fun b m => handleMsg m.1 m.2 b) book) := by
  induction msgs generalizing book with
  | nil => exact h
  | cons m rest ih => exact ih (goodBook_handleMsg m.1 m.2 h)

theorem goodBook_runStream (bids asks : List (ℚ × String))
    (msgs : List (List (ℚ × String) × List (ℚ × String)))
    (h : goodBook (snapshotBook bids asks)) : goodBook (runStream bids asks msgs) :=
  goodBook_foldl msgs h

/-- Within one side of a well-formed book the prices are pairwise
distinct. -/
theorem distinctKeys_filter_side {book : List Order} (h : goodBook book) (sd : String) :
    distinctKeys Order.price (book.filter fun o => o.side == sd) := by
  have hp : (book.filter fun o => o.side == sd).Pairwise
      (fun a b => a.side = b.side → a.price ≠ b.price) := h.filter _
  refine hp.imp_of_mem ?_
  intro a b ha hb hr
  have ha' : a.side = sd := by simpa using (List.mem_filter.mp ha).2
  have hb' : b.side = sd := by simpa using (List.mem_filter.mp hb).2
  exact hr (ha'.trans hb'.symm)

end Binance

namespace Kraken

theorem mem_kset {p : ℚ} {v : String} {b : Book} {x : Entry} (h : x ∈ kset p v b) :
    x ∈ b ∨ x.1 = p := by
  induction b with
  | nil =>
    unfold kset at h
    rw [List.mem_singleton] at h
    subst h
    exact Or.inr rfl
  | cons e rest ih =>
    unfold kset at h
    by_cases he : e.1 = p
    · rw [if_pos he, List.mem_cons] at h
      rcases h with h | h
      · subst h; exact Or.inr he
      · exact Or.inl (List.mem_cons_of_mem e h)
    · rw [if_neg he, List.mem_cons] at h
      rcases h with h | h
      · exact Or.inl (h ▸ List.mem_cons_self e rest)
      · rcases ih h with h' | h'
        · exact Or.inl (List.mem_cons_of_mem e h')
        · exact Or.inr h'

theorem distinctKeys_kset (p : ℚ) (v : String) {b : Book}
    (h : distinctKeys Prod.fst b) : distinctKeys Prod.fst (kset p v b) := by
  induction b with
  | nil =>
    unfold kset distinctKeys
    exact List.pairwise_singleton _ _
  | cons e rest ih =>
    unfold distinctKeys at h
    rw [List.pairwise_cons] at h
    obtain ⟨h1, h2⟩ := h
    unfold kset
    by_cases he : e.1 = p
    · rw [if_pos he]
      unfold distinctKeys
      rw [List.pairwise_cons]
      exact ⟨h1, h2⟩
    · rw [if_neg he]
      unfold distinctKeys
      rw [List.pairwise_cons]
      refine ⟨?_, ih h2⟩
      intro x hx
      rcases mem_kset hx with hx' | hx'
      · exact h1 x hx'
      · rw [hx']; exact he

theorem kdel_sublist (p : ℚ) (b : Book) : (kdel p b).Sublist b := by
  induction b with
  | nil => exact List.Sublist.refl []
  | cons e rest ih =>
    unfold kdel
    by_cases he : e.1 = p
    · rw [if_pos he]
      exact (List.Sublist.refl rest).cons e
    · rw [if_neg he]
      exact ih.cons₂ e

theorem distinctKeys_kdel (p : ℚ) {b : Book} (h : distinctKeys Prod.fst b) :
    distinctKeys Prod.fst (kdel p b) :=
  distinctKeys_sublist (kdel_sublist p b) h

theorem distinctKeys_applyChange {b : Book} (c : Entry)
    (h : distinctKeys Prod.fst b) : distinctKeys Prod.fst (applyChange b c) := by
  unfold applyChange
  by_cases hc : c.2 = zeroSentinel
  · rw [if_pos hc]; exact distinctKeys_kdel c.1 h
  · rw [if_neg hc]; exact distinctKeys_kset c.1 c.2 h

theorem distinctKeys_foldl_kset (l : List Entry) {m : Book}
    (h : distinctKeys Prod.fst m) :
    distinctKeys Prod.fst (l.foldl (fun m e => kset e.1 e.2 m) m) := by
  induction l generalizing m with
  | nil => exact h
  | cons e rest ih => exact ih (distinctKeys_kset e.1 e.2 h)

theorem distinctKeys_fromPairs (l : List Entry) : distinctKeys Prod.fst (fromPairs l) :=
  distinctKeys_foldl_kset l List.Pairwise.nil

theorem distinctKeys_runSide (snap evts : List Entry) :
    distinctKeys Prod.fst (runSide snap evts) := by
  unfold runSide
  have h0 := distinctKeys_fromPairs snap
  generalize fromPairs snap = b at h0
  induction evts generalizing b with
  | nil => exact h0
  | cons e rest ih => exact ih _ (distinctKeys_applyChange e h0)

end Kraken

/-- C1: for every sequence of upserts and deletes applied after a snapshot,
projecting a side with bound `n` is sorted by price — strictly ascending for
the ask side, strictly descending for the bid side, whence the pairwise
distinct prices within the side — and holds at most `n` entries.  Proved for
the Binance book (whose snapshot must satisfy the per-side one-level-per-price
invariant, which updates then preserve) and for a Kraken side, where the
invariant holds by construction because the side is a JS object keyed by
price. -/
theorem C1_project_sorted_bounded
    (bids asks : List (ℚ × String)) (msgs : List (List (ℚ × String) × List (ℚ × String)))
    (n : Nat) (hgood : Binance.goodBook (Binance.snapshotBook bids asks))
    (snap evts : List Kraken.Entry) (asc : Bool) :
    (Binance.projectAsks n (Binance.runStream bids asks msgs)).Pairwise
      (fun a b => a.price < b.price) ∧
    (Binance.projectBids n (Binance.runStream bids asks msgs)).Pairwise
      (fun a b => b.price < a.price) ∧
    (Binance.projectAsks n (Binance.runStream bids asks msgs)).length ≤ n ∧
    (Binance.projectBids n (Binance.runStream bids asks msgs)).length ≤ n ∧
    (Kraken.projectSide asc n (Kraken.runSide snap evts)).Pairwise
      (strictKeyRel Prod.fst asc) ∧
    (Kraken.projectSide asc n (Kraken.runSide snap evts)).length ≤ n := by
  have hb : Binance.goodBook (Binance.runStream bids asks msgs) :=
    Binance.goodBook_runStream bids asks msgs hgood
  have ha := @sortTake_strict_sorted Binance.Order Binance.Order.price true _
    (Binance.distinctKeys_filter_side hb "Sell") n
  have hbd := @sortTake_strict_sorted Binance.Order Binance.Order.price false _
    (Binance.distinctKeys_filter_side hb "Buy") n
  have hk := @sortTake_strict_sorted Kraken.Entry Prod.fst asc _
    (Kraken.distinctKeys_runSide snap evts) n
  refine ⟨?_, ?_, ha.2, hbd.2, hk.1, hk.2⟩
  · exact ha.1.imp fun h => by simpa [strictKeyRel] using h
  · exact hbd.1.imp fun h => by simpa [strictKeyRel] using h

/-- Closed instance of C1: a concrete snapshot, one update message, bound 2. -/
theorem C1_project_sorted_bounded_witness :
    (Binance.projectAsks 2 (Binance.runStream [(99, "1")] [(100, "1"), (101, "2")]
      [([], [(100, "3")])])).Pairwise (fun a b => a.price < b.price) ∧
    (Binance.projectBids 2 (Binance.runStream [(99, "1")] [(100, "1"), (101, "2")]
      [([], [(100, "3")])])).Pairwise (fun a b => b.price < a.price) ∧
    (Binance.projectAsks 2 (Binance.runStream [(99, "1")] [(100, "1"), (101, "2")]
      [([], [(100, "3")])])).length ≤ 2 ∧
    (Binance.projectBids 2 (Binance.runStream [(99, "1")] [(100, "1"), (101, "2")]
      [([], [(100, "3")])])).length ≤ 2 ∧
    (Kraken.projectSide true 2 (Kraken.runSide [(5, "1"), (6, "2")] [(7, "0.1")])).Pairwise
      (strictKeyRel Prod.fst true) ∧
    (Kraken.projectSide true 2 (Kraken.runSide [(5, "1"), (6, "2")] [(7, "0.1")])).length ≤ 2 :=
  C1_project_sorted_bounded [(99, "1")] [(100, "1"), (101, "2")] [([], [(100, "3")])] 2
    (by decide) [(5, "1"), (6, "2")] [(7, "0.1")] true

/-- C2: the per-venue volume conversion.  When the native unit is the wanted
unit the size is unchanged (Binance and Kraken report base and keep the size
with `baseVolume = true`, BitMEX reports quote and keeps it with
`baseVolume = false`); from base to quote the size is multiplied by the price;
from quote to base it is divided by the price.  All three agree with the
spec-worded `normalizeSpec` at their native unit, and the scenario
`baseVolume = false`, native unit base, price 20000, size 0.5 yields 10000. -/
theorem C2_normalize_volume (flag : Bool) (price size : ℚ) (hp : price ≠ 0) :
    Binance.volume true price size = size ∧
    Kraken.volume true price size = size ∧
    Bitmex.volume false price size = some size ∧
    Binance.volume false price size = size * price ∧
    Kraken.volume false price size = size * price ∧
    Bitmex.volume true price size = some (size / price) ∧
    some (Binance.volume flag price size) = normalizeSpec price size true flag ∧
    some (Kraken.volume flag price size) = normalizeSpec price size true flag ∧
    Bitmex.volume flag price size = normalizeSpec price size false flag ∧
    Binance.volume false 20000 (1 / 2) = 10000 ∧
    Kraken.volume false 20000 (1 / 2) = 10000 := by
  refine ⟨rfl, rfl, rfl, by simp [Binance.volume, mul_comm], rfl,
    by simp [Bitmex.volume, jsDiv, hp], ?_, ?_, ?_,
    by norm_num [Binance.volume], by norm_num [Kraken.volume]⟩
  · cases flag <;> simp [Binance.volume, normalizeSpec, mul_comm]
  · cases flag <;> simp [Kraken.volume, normalizeSpec]
  · cases flag <;> simp [Bitmex.volume, normalizeSpec, jsDiv]

/-- Closed instance of C2 at the spec's own scenario: `baseVolume = false`,
price 20000, size 0.5. -/
theorem C2_normalize_volume_witness :
    Binance.volume true 20000 (1 / 2) = 1 / 2 ∧
    Kraken.volume true 20000 (1 / 2) = 1 / 2 ∧
    Bitmex.volume false 20000 (1 / 2) = some (1 / 2) ∧
    Binance.volume false 20000 (1 / 2) = 1 / 2 * 20000 ∧
    Kraken.volume false 20000 (1 / 2) = 1 / 2 * 20000 ∧
    Bitmex.volume true 20000 (1 / 2) = some (1 / 2 / 20000) ∧
    some (Binance.volume false 20000 (1 / 2)) = normalizeSpec 20000 (1 / 2) true false ∧
    some (Kraken.volume false 20000 (1 / 2)) = normalizeSpec 20000 (1 / 2) true false ∧
    Bitmex.volume false 20000 (1 / 2) = normalizeSpec 20000 (1 / 2) false false ∧
    Binance.volume false 20000 (1 / 2) = 10000 ∧
    Kraken.volume false 20000 (1 / 2) = 10000 :=
  C2_normalize_volume false 20000 (1 / 2) (by norm_num)

namespace Bitmex

theorem rowsFrom_length (label : String) (flag : Bool) :
    ∀ (i : Nat) (l : List Order), (rowsFrom label flag i l).length = l.length := by
  intro i l
  induction l generalizing i with
  | nil => rfl
  | cons o rest ih =>
    unfold rowsFrom
    simp [ih]

theorem mem_rowsFrom {label : String} {flag : Bool} {r : Row} :
    ∀ {i : Nat} {l : List Order}, r ∈ rowsFrom label flag i l →
      ∃ o ∈ l, r.price = o.price ∧ r.volume = volume flag o.price o.size := by
  intro i l
  induction l generalizing i with
  | nil => intro h; exact absurd h (List.not_mem_nil r)
  | cons o rest ih =>
    intro h
    unfold rowsFrom at h
    rw [List.mem_cons] at h
    rcases h with h | h
    · exact ⟨o, List.mem_cons_self o rest, by rw [h], by rw [h]⟩
    · obtain ⟨o', ho', hr⟩ := ih h
      exact ⟨o', List.mem_cons_of_mem o ho', hr⟩

theorem jsDiv_eq_none {a b : ℚ} : jsDiv a b = none ↔ b = 0 := by
  unfold jsDiv
  by_cases hb : b = 0
  · simp [hb]
  · simp [hb]

end Bitmex

/-- C3 counterexample: with one retained level, the rendered projection of
`Demo.mexBook2` (asks at 100 and 101) is identical, row for row, to the last
emitted projection, the one of `Demo.mexBook1` (ask at 100 only) — yet the
gate emits again, because `insertOrderBookToDB` compares the stringified raw
books, not the rendered projections, and the raw books differ at the second
ask.  This falsifies the claim that a call whose projection is identical to
the last emitted one is suppressed. -/
theorem C3_gate_compares_raw_book_counterexample :
    Bitmex.bookRows false 1 Demo.mexBook2 = Bitmex.bookRows false 1 Demo.mexBook1 ∧
    Bitmex.shouldEmit (some Demo.mexBook1) Demo.mexBook2 = true := by
  decide

/-- C3 as amended: the gate always emits on the first call (the stringified
`undefined` never equals a stringified array), suppresses exactly the calls
whose **whole raw book** equals the book at the last actual emission, and
hence still emits whenever any row of the rendered projection differs; but
suppression is decided on the raw id-keyed book, not on the rendered
projection. -/
theorem C3_gate_first_and_raw_equality (prev book : List Bitmex.Order) (flag : Bool) (n : Nat)
    (hdiff : Bitmex.bookRows flag n book ≠ Bitmex.bookRows flag n prev) :
    Bitmex.shouldEmit none book = true ∧
    Bitmex.shouldEmit (some book) book = false ∧
    Bitmex.shouldEmit (some prev) book = true ∧
    (∀ p, Bitmex.shouldEmit (some p) book = false → book = p) := by
  refine ⟨rfl, ?_, ?_, ?_⟩
  · simp [Bitmex.shouldEmit, Bitmex.sameAsLast]
  · have hne : book ≠ prev := fun h => hdiff (by rw [h])
    simp [Bitmex.shouldEmit, Bitmex.sameAsLast, hne]
  · intro p h
    simpa [Bitmex.shouldEmit, Bitmex.sameAsLast] using h

/-- Closed instance of the amended C3: an empty last-emitted book and the
one-ask book render different projections, so the gate emits; it also emits on
the first call and suppresses the identical book. -/
theorem C3_gate_first_and_raw_equality_witness :
    Bitmex.shouldEmit none Demo.mexBook1 = true ∧
    Bitmex.shouldEmit (some Demo.mexBook1) Demo.mexBook1 = false ∧
    Bitmex.shouldEmit (some []) Demo.mexBook1 = true :=
  ⟨(C3_gate_first_and_raw_equality [] Demo.mexBook1 false 1 (by decide)).1,
   (C3_gate_first_and_raw_equality [] Demo.mexBook1 false 1 (by decide)).2.1,
   (C3_gate_first_and_raw_equality [] Demo.mexBook1 false 1 (by decide)).2.2.1⟩

/-- C4 counterexample: in `Demo.mexZeroPrice` the best ask has price 0, so the
quote→base conversion divides by zero; the claim says that record alone is
skipped and the rest of the batch is produced, but the code performs no check:
both rows are produced, and the zero-price row is emitted with the non-finite
volume. -/
theorem C4_zero_price_row_not_skipped_counterexample :
    (Bitmex.bookRows true 2 Demo.mexZeroPrice).length = 2 ∧
    (∃ r ∈ Bitmex.bookRows true 2 Demo.mexZeroPrice, r.price = 0 ∧ r.volume = none) := by
  decide

/-- C4 as amended: no record is ever skipped — every projected order yields
exactly one row, so the batch always holds `min n #bids + min n #asks` rows —
and with `baseVolume = true` a row's volume is non-finite (JS `Infinity`/
`NaN`, modelled `none`) exactly when its price is 0.  The division itself
never raises, so the batch is never aborted, matching the claim's
no-process-crash part. -/
theorem C4_no_record_skipped (flag : Bool) (n : Nat) (book : List Bitmex.Order) :
    (Bitmex.bookRows flag n book).length =
      min n (book.filter fun o => o.side == "Buy").length +
      min n (book.filter fun o => o.side == "Sell").length ∧
    ∀ r ∈ Bitmex.bookRows true n book, (r.volume = none ↔ r.price = 0) := by
  constructor
  · unfold Bitmex.bookRows Bitmex.sideRows
    rw [List.length_append, Bitmex.rowsFrom_length, Bitmex.rowsFrom_length,
      List.length_take, List.length_take, List.length_insertionSort,
      List.length_insertionSort]
  · intro r hr
    unfold Bitmex.bookRows at hr
    rw [List.mem_append] at hr
    rcases hr with hr | hr <;>
    · obtain ⟨o, _, hp, hv⟩ := Bitmex.mem_rowsFrom hr
      rw [hv, hp]
      unfold Bitmex.volume
      simpa using Bitmex.jsDiv_eq_none

/-- C5 counterexample: `Demo.mexBook1` already holds the order with id 1;
applying an `insert` event with the same id leaves **two** orders with that
id in the book, not exactly one as the claim states — the code pushes
unconditionally and neither overwrites nor logs. -/
theorem C5_duplicate_insert_counterexample :
    Bitmex.countId (Bitmex.applyInsert Demo.mexBook1 ⟨1, "Sell", 100, 2⟩) 1 = 2 := by
  decide

/-- C5 as amended: an `insert` event appends the order unconditionally, so
when its id is already present the book afterwards carries one **more** order
with that id (old fields survive next to the new ones); the operation is never
fatal — it is total and touches no other entry. -/
theorem C5_insert_appends (book : List Bitmex.Order) (o : Bitmex.Order) :
    Bitmex.applyInsert book o = book ++ [o] ∧
    Bitmex.countId (Bitmex.applyInsert book o) o.id = Bitmex.countId book o.id + 1 := by
  refine ⟨rfl, ?_⟩
  unfold Bitmex.countId Bitmex.applyInsert
  rw [List.filter_append]
  simp

/-- C6: the Kucoin `insertOrderBooktoDB` emits one row per retained level of
the stored book — which `handleOrderBook` truncates to the literal 50 — and
never consults `cfgNumLevels`.  With `config.kucoin.numLevel = 1` (a valid
configuration, the script itself checks `1 ≤ numLevel ≤ 50`) and a book
holding two asks, a row with `order_level = 2` is emitted, contradicting the
claim (and the script's own header comment, which promises rows only up to the
configured level).  The rows function provably takes no bound at all: its
levels here are exactly `[1, 2]`. -/
theorem C6_kucoin_rows_ignore_configured_levels :
    (Kucoin.bookRows [] Demo.kcTwoAsks).map Kucoin.KRow.level = [1, 2] ∧
    (∃ r ∈ Kucoin.bookRows [] Demo.kcTwoAsks, 1 < r.level) := by
  decide

/-- C7 counterexample: a Binance wire message that is neither a snapshot nor a
depth update (no `bids`/`asks` arrays — e.g. any service frame) makes
`handleOrderBook` throw a `TypeError` out of the message listener
(`crashed = true`): nothing is logged, and the stream does **not** simply
continue as the claim states.  The book happens to stay unchanged only
because the throw occurs before any mutation. -/
theorem C7_binance_unrecognized_crashes_counterexample :
    Binance.handleWire Demo.binSmall ⟨none, none⟩ =
      ⟨Demo.binSmall, false, true⟩ := rfl

/-- C7 as amended: Kucoin and BitMEX do drop unrecognized messages — the book
is unchanged and no rows are emitted — but silently, with no log; Binance has
no recognition check at all and throws instead (see the counterexample). -/
theorem C7_unrecognized_silently_dropped (kb : Kucoin.KBook) (km : Kucoin.KMsg)
    (hk : ¬(km.mtype = "message" ∧ km.subject = "trade.l2update"))
    (mb : List Bitmex.Order) (mm : Bitmex.MMsg) (hm : mm.table ≠ "orderBookL2_25") :
    Kucoin.handleMsg kb km = (kb, none) ∧ Bitmex.handleMsg mb mm = (mb, false) := by
  constructor
  · unfold Kucoin.handleMsg
    rw [if_neg hk]
  · unfold Bitmex.handleMsg
    rw [if_neg hm]

/-- Closed instance of the amended C7: a Kucoin welcome frame and a BitMEX
trade frame are dropped without touching the books or emitting rows. -/
theorem C7_unrecognized_silently_dropped_witness :
    Kucoin.handleMsg ⟨[], []⟩ ⟨"welcome", "", [], []⟩ = (⟨[], []⟩, none) ∧
    Bitmex.handleMsg Demo.mexBook1 ⟨"trade", "insert", []⟩ = (Demo.mexBook1, false) :=
  C7_unrecognized_silently_dropped ⟨[], []⟩ ⟨"welcome", "", [], []⟩ (by simp)
    Demo.mexBook1 ⟨"trade", "insert", []⟩ (by simp)

theorem priceLookup_eq_none {p : ℚ} :
    ∀ {l : List (ℚ × String)}, (∀ e ∈ l, e.1 ≠ p) → priceLookup p l = none := by
  intro l h
  induction l with
  | nil => rfl
  | cons e rest ih =>
    unfold priceLookup
    rw [if_neg (h e (List.mem_cons_self e rest))]
    exact ih fun x hx => h x (List.mem_cons_of_mem e hx)

theorem priceLookup_of_mem_distinct {p : ℚ} {v : String} :
    ∀ {l : List (ℚ × String)}, (p, v) ∈ l → distinctKeys Prod.fst l →
      priceLookup p l = some v := by
  intro l hm hd
  induction l with
  | nil => exact absurd hm (List.not_mem_nil _)
  | cons e rest ih =>
    unfold distinctKeys at hd
    rw [List.pairwise_cons] at hd
    rw [List.mem_cons] at hm
    unfold priceLookup
    rcases hm with hm | hm
    · rw [if_pos (by rw [← hm])]
      rw [← hm]
    · have he : e.1 ≠ p := fun h => hd.1 (p, v) hm (by rw [h])
      rw [if_neg he]
      exact ih hm hd.2

namespace Binance

theorem applyChange_absent_noop {sd : String} {p : ℚ} {book : List Order}
    (habs : ∀ o ∈ book, ¬(o.price = p ∧ o.side = sd)) :
    applyChange sd p zeroSentinel book = book := by
  induction book with
  | nil => simp [applyChange]
  | cons o rest ih =>
    unfold applyChange
    rw [if_neg (habs o (List.mem_cons_self o rest))]
    rw [ih fun x hx => habs x (List.mem_cons_of_mem o hx)]

theorem applyChange_upsert_twice {sd : String} {p : ℚ} {q1 q2 : String} {book : List Order}
    (hq1 : q1 ≠ zeroSentinel) :
    applyChange sd p q2 (applyChange sd p q1 book) = applyChange sd p q2 book := by
  induction book with
  | nil => simp [applyChange, hq1]
  | cons o rest ih =>
    by_cases ho : o.price = p ∧ o.side = sd
    · simp [applyChange, hq1, ho.1, ho.2]
    · simp [applyChange, ho, ih]

theorem sideLookup_eq_none {sd : String} {p : ℚ} :
    ∀ {l : List Order}, (∀ o ∈ l, ¬(o.price = p ∧ o.side = sd)) →
      sideLookup sd p l = none := by
  intro l h
  induction l with
  | nil => rfl
  | cons o rest ih =>
    unfold sideLookup
    rw [if_neg (h o (List.mem_cons_self o rest))]
    exact ih fun x hx => h x (List.mem_cons_of_mem o hx)

theorem sideLookup_applyChange_upsert {sd : String} {p : ℚ} {q : String}
    {book : List Order} (hq : q ≠ zeroSentinel) :
    sideLookup sd p (applyChange sd p q book) = some q := by
  induction book with
  | nil => simp [applyChange, sideLookup, hq]
  | cons o rest ih =>
    by_cases ho : o.price = p ∧ o.side = sd
    · simp [applyChange, sideLookup, hq, ho.1, ho.2]
    · simp [applyChange, sideLookup, ho, ih]

theorem sideLookup_applyChange_delete {sd : String} {p : ℚ} {book : List Order}
    (hg : goodBook book) :
    sideLookup sd p (applyChange sd p zeroSentinel book) = none := by
  induction book with
  | nil => simp [applyChange, sideLookup]
  | cons o rest ih =>
    unfold goodBook at hg
    rw [List.pairwise_cons] at hg
    by_cases ho : o.price = p ∧ o.side = sd
    · have hrest : sideLookup sd p rest = none := by
        apply sideLookup_eq_none
        intro b hb hmatch
        exact hg.1 b hb (ho.2.trans hmatch.2.symm) (ho.1.trans hmatch.1.symm)
      simp [applyChange, ho.1, ho.2, zeroSentinel, hrest]
    · simp [applyChange, sideLookup, ho, ih hg.2]

end Binance

namespace Bitmex

theorem applyDelete_absent_noop {i : Nat} {book : List Order}
    (h : ∀ o ∈ book, o.id ≠ i) : applyDelete i book = book := by
  induction book with
  | nil => rfl
  | cons o rest ih =>
    unfold applyDelete
    rw [if_neg (h o (List.mem_cons_self o rest))]
    rw [ih fun x hx => h x (List.mem_cons_of_mem o hx)]

end Bitmex

namespace Kraken

theorem kdel_absent_noop {p : ℚ} {b : Book} (h : ∀ e ∈ b, e.1 ≠ p) : kdel p b = b := by
  induction b with
  | nil => rfl
  | cons e rest ih =>
    unfold kdel
    rw [if_neg (h e (List.mem_cons_self e rest))]
    rw [ih fun x hx => h x (List.mem_cons_of_mem e hx)]

theorem kset_kset (p : ℚ) (v1 v2 : String) (b : Book) :
    kset p v2 (kset p v1 b) = kset p v2 b := by
  induction b with
  | nil => simp [kset]
  | cons e rest ih =>
    by_cases he : e.1 = p
    · simp [kset, he]
    · simp [kset, he, ih]

theorem priceLookup_kset (p : ℚ) (v : String) (b : Book) :
    priceLookup p (kset p v b) = some v := by
  induction b with
  | nil => simp [kset, priceLookup]
  | cons e rest ih =>
    by_cases he : e.1 = p
    · simp [kset, he, priceLookup]
    · simp [kset, he, priceLookup, ih]

theorem priceLookup_kdel {p : ℚ} {b : Book} (hd : distinctKeys Prod.fst b) :
    priceLookup p (kdel p b) = none := by
  induction b with
  | nil => rfl
  | cons e rest ih =>
    unfold distinctKeys at hd
    rw [List.pairwise_cons] at hd
    unfold kdel
    by_cases he : e.1 = p
    · rw [if_pos he]
      exact priceLookup_eq_none fun x hx => fun h => hd.1 x hx (he.trans h.symm)
    · rw [if_neg he]
      unfold priceLookup
      rw [if_neg he]
      exact ih hd.2

end Kraken

namespace Kucoin

theorem upsert_of_mem {p : ℚ} {s : String} {l : List Level}
    (hp : p ∈ l.map Prod.fst) : upsert p s l = setFirst p s l := by
  induction l with
  | nil => simp at hp
  | cons e rest ih =>
    by_cases he : e.1 = p
    · simp [upsert, setFirst, he]
    · have hp' : p ∈ rest.map Prod.fst := by
        rcases List.mem_map.mp hp with ⟨x, hx, hxp⟩
        rcases List.mem_cons.mp hx with h | h
        · exact absurd (h ▸ hxp) he
        · exact List.mem_map.mpr ⟨x, h, hxp⟩
      simp [upsert, setFirst, he, ih hp']

theorem upsert_of_not_mem {p : ℚ} {s : String} {l : List Level}
    (hp : p ∉ l.map Prod.fst) : upsert p s l = l ++ [(p, s)] := by
  induction l with
  | nil => rfl
  | cons e rest ih =>
    have he : ¬(e.1 = p) := fun h => hp (List.mem_map.mpr ⟨e, List.mem_cons_self e rest, h⟩)
    have hp' : p ∉ rest.map Prod.fst := fun h => hp (by simp [h])
    simp [upsert, he, ih hp']

theorem setFirst_map_fst (p : ℚ) (s : String) (l : List Level) :
    (setFirst p s l).map Prod.fst = l.map Prod.fst := by
  induction l with
  | nil => rfl
  | cons e rest ih =>
    by_cases he : e.1 = p
    · simp [setFirst, he]
    · simp [setFirst, he, ih]

theorem setFirst_length (p : ℚ) (s : String) (l : List Level) :
    (setFirst p s l).length = l.length := by
  have h := congrArg List.length (setFirst_map_fst p s l)
  simpa using h

/-- Pairwise facts about a level list depend only on the price column, which
`setFirst` preserves. -/
theorem pairwise_fst_of_map (R : ℚ → ℚ → Prop) {l l' : List Level}
    (hmap : l'.map Prod.fst = l.map Prod.fst)
    (h : l.Pairwise fun a b => R a.1 b.1) : l'.Pairwise fun a b => R a.1 b.1 := by
  have h1 : (l.map Prod.fst).Pairwise R := by
    rw [List.pairwise_map]
    exact h
  have h2 : (l'.map Prod.fst).Pairwise R := hmap ▸ h1
  rw [List.pairwise_map] at h2
  exact h2

theorem sorted_setFirst {asc : Bool} (p : ℚ) (s : String) {l : List Level}
    (h : l.Sorted (keyRel Prod.fst asc)) :
    (setFirst p s l).Sorted (keyRel Prod.fst asc) :=
  pairwise_fst_of_map (fun x y => if asc then x ≤ y else y ≤ x)
    (setFirst_map_fst p s l) h

theorem distinct_setFirst (p : ℚ) (s : String) {l : List Level}
    (h : distinctKeys Prod.fst l) : distinctKeys Prod.fst (setFirst p s l) :=
  pairwise_fst_of_map Ne (setFirst_map_fst p s l) h

theorem setFirst_setFirst (p : ℚ) (s1 s2 : String) (l : List Level) :
    setFirst p s2 (setFirst p s1 l) = setFirst p s2 l := by
  induction l with
  | nil => rfl
  | cons e rest ih =>
    by_cases he : e.1 = p
    · simp [setFirst, he]
    · simp [setFirst, he, ih]

theorem setFirst_take (p : ℚ) (s : String) :
    ∀ (n : Nat) (l : List Level), setFirst p s (l.take n) = (setFirst p s l).take n := by
  intro n l
  induction l generalizing n with
  | nil => simp [setFirst]
  | cons e rest ih =>
    cases n with
    | zero => simp [setFirst]
    | succ m =>
      by_cases he : e.1 = p
      · simp [setFirst, he, List.take_succ_cons]
      · simp [setFirst, he, List.take_succ_cons, ih]

theorem setFirst_orderedInsert {asc : Bool} (p : ℚ) (s1 s2 : String) {l : List Level}
    (hp : p ∉ l.map Prod.fst) :
    setFirst p s2 (l.orderedInsert (keyRel Prod.fst asc) (p, s1)) =
      l.orderedInsert (keyRel Prod.fst asc) (p, s2) := by
  induction l with
  | nil => simp [List.orderedInsert, setFirst]
  | cons e rest ih =>
    have he : e.1 ≠ p := fun h => hp (List.mem_map.mpr ⟨e, List.mem_cons_self e rest, h⟩)
    have hp' : p ∉ rest.map Prod.fst := fun h => hp (by simp [h])
    by_cases hr : keyRel Prod.fst asc (p, s1) e
    · have hr2 : keyRel Prod.fst asc (p, s2) e := hr
      simp [List.orderedInsert, hr, hr2, setFirst, he]
    · have hr2 : ¬keyRel Prod.fst asc (p, s2) e := hr
      simp [List.orderedInsert, hr, hr2, setFirst, he, ih hp']

theorem distinct_upsert (p : ℚ) (s : String) {l : List Level}
    (hd : distinctKeys Prod.fst l) : distinctKeys Prod.fst (upsert p s l) := by
  by_cases hp : p ∈ l.map Prod.fst
  · rw [upsert_of_mem hp]
    exact distinct_setFirst p s hd
  · rw [upsert_of_not_mem hp]
    unfold distinctKeys
    rw [List.pairwise_append]
    refine ⟨hd, List.pairwise_singleton _ _, ?_⟩
    intro a ha b hb
    rw [List.mem_singleton] at hb
    subst hb
    exact fun h => hp (List.mem_map.mpr ⟨a, ha, h⟩)

theorem upsert_length_le (p : ℚ) (s : String) (l : List Level) :
    (upsert p s l).length ≤ l.length + 1 := by
  induction l with
  | nil => simp [upsert]
  | cons e rest ih =>
    by_cases he : e.1 = p
    · simp [upsert, he]
    · simp only [upsert, if_neg he, List.length_cons]
      exact Nat.succ_le_succ ih

theorem mem_upsert_self (p : ℚ) (s : String) : ∀ (l : List Level), (p, s) ∈ upsert p s l := by
  intro l
  induction l with
  | nil => simp [upsert]
  | cons e rest ih =>
    by_cases he : e.1 = p
    · simp [upsert, he]
    · simp [upsert, he]
      right
      exact ih

theorem sortTrunc_of_sorted {asc : Bool} {l : List Level}
    (hs : l.Sorted (keyRel Prod.fst asc)) (hl : l.length ≤ 50) : sortTrunc asc l = l := by
  unfold sortTrunc
  rw [hs.insertionSort_eq]
  exact List.take_of_length_le hl

theorem applyChange_of_ne_sentinel {asc : Bool} {l : List Level} {p : ℚ} {s : String}
    (hs : s ≠ "0") : applyChange asc l p s = sortTrunc asc (upsert p s l) := by
  unfold applyChange
  rw [if_neg hs]

theorem mem_of_mem_sortTrunc {asc : Bool} {l : List Level} {e : Level}
    (h : e ∈ sortTrunc asc l) : e ∈ l := by
  unfold sortTrunc at h
  exact (List.perm_insertionSort _ _).mem_iff.mp (List.take_subset 50 _ h)

/-- C8's Kucoin case: a zero-sentinel update for an absent price is a no-op on
a reachable (sorted, at most 50 levels) side. -/
theorem applyChange_delete_absent {asc : Bool} {l : List Level} {p : ℚ}
    (hsor : l.Sorted (keyRel Prod.fst asc)) (hlen : l.length ≤ 50)
    (habs : ∀ e ∈ l, e.1 ≠ p) : applyChange asc l p "0" = l := by
  unfold applyChange
  rw [if_pos rfl]
  have hfil : l.filter (fun e => decide (e.1 ≠ p)) = l :=
    List.filter_eq_self.mpr fun a ha => by simpa using habs a ha
  rw [hfil]
  exact sortTrunc_of_sorted hsor hlen

/-- C9's Kucoin case: on a reachable side (sorted, duplicate-free, at most 50
levels) two upserts at the same price collapse to the second one, through the
re-sort and the truncation to 50 after each change. -/
theorem applyChange_upsert_lww {asc : Bool} {l : List Level} {p : ℚ} {s1 s2 : String}
    (hs1 : s1 ≠ "0") (hs2 : s2 ≠ "0")
    (hsor : l.Sorted (keyRel Prod.fst asc)) (hd : distinctKeys Prod.fst l)
    (hlen : l.length ≤ 50) :
    applyChange asc (applyChange asc l p s1) p s2 = applyChange asc l p s2 := by
  rw [applyChange_of_ne_sentinel hs1, applyChange_of_ne_sentinel hs2,
    applyChange_of_ne_sentinel hs2]
  by_cases hp : p ∈ l.map Prod.fst
  · rw [upsert_of_mem hp]
    rw [sortTrunc_of_sorted (sorted_setFirst p s1 hsor)
      (by rw [setFirst_length]; exact hlen)]
    have hp1 : p ∈ (setFirst p s1 l).map Prod.fst := by
      rw [setFirst_map_fst]; exact hp
    rw [upsert_of_mem hp1, setFirst_setFirst, upsert_of_mem hp]
  · have hfresh : ∀ a ∈ l, a.1 ≠ p := fun a ha h => hp (List.mem_map.mpr ⟨a, ha, h⟩)
    rw [upsert_of_not_mem hp]
    unfold sortTrunc
    rw [insertionSort_append_singleton hsor hd hfresh]
    rcases take_orderedInsert_cases (keyRel Prod.fst asc) (p, s1) l 50 hlen with hmem | heq
    · have hpB : p ∈ ((l.orderedInsert (keyRel Prod.fst asc) (p, s1)).take 50).map Prod.fst :=
        List.mem_map.mpr ⟨(p, s1), hmem, rfl⟩
      rw [upsert_of_mem hpB, setFirst_take, setFirst_orderedInsert p s1 s2 hp]
      have hsor2 : ((l.orderedInsert (keyRel Prod.fst asc) (p, s2)).take 50).Sorted
          (keyRel Prod.fst asc) :=
        (hsor.orderedInsert (p, s2) l).sublist (List.take_sublist 50 _)
      rw [hsor2.insertionSort_eq, List.take_of_length_le (List.length_take_le 50 _)]
      rw [upsert_of_not_mem hp, insertionSort_append_singleton hsor hd hfresh]
    · rw [heq]

/-- C10's Kucoin cases: a non-sentinel size string is stored verbatim at its
price (on a side with room, so that the truncation cannot drop it), and the
exact sentinel `"0"` removes every level at the price. -/
theorem priceLookup_applyChange_upsert {asc : Bool} {l : List Level} {p : ℚ} {s : String}
    (hs : s ≠ "0") (hd : distinctKeys Prod.fst l) (hlen : l.length < 50) :
    priceLookup p (applyChange asc l p s) = some s := by
  rw [applyChange_of_ne_sentinel hs]
  have hlu : (upsert p s l).length ≤ 50 :=
    le_trans (upsert_length_le p s l) (by omega)
  have hid : sortTrunc asc (upsert p s l) =
      (upsert p s l).insertionSort (keyRel Prod.fst asc) := by
    unfold sortTrunc
    exact List.take_of_length_le (by rw [List.length_insertionSort]; exact hlu)
  rw [hid]
  apply priceLookup_of_mem_distinct
  · exact (List.perm_insertionSort _ _).mem_iff.mpr (mem_upsert_self p s l)
  · exact distinctKeys_perm (List.perm_insertionSort _ _).symm (distinct_upsert p s hd)

theorem priceLookup_applyChange_delete {asc : Bool} {l : List Level} {p : ℚ} :
    priceLookup p (applyChange asc l p "0") = none := by
  unfold applyChange
  rw [if_pos rfl]
  apply priceLookup_eq_none
  intro e he
  have hmem := mem_of_mem_sortTrunc he
  simpa using List.of_mem_filter hmem

end Kucoin

/-- C8: applying a delete (or zero-sentinel update) for a price or id that is
absent leaves the book unchanged and raises no error, on every venue: the
Binance `findIndex` misses and nothing is spliced; the BitMEX `findIndex`
misses and nothing is spliced; the Kraken `delete` of an absent object key is
a no-op; the Kucoin `filter` removes nothing, and on a reachable side (sorted,
at most 50 levels — the state every `handleOrderBook` pass leaves behind) the
re-sort and truncation then return the side unchanged. -/
theorem C8_delete_absent_noop
    (bbook : List Binance.Order) (sd : String) (p : ℚ)
    (hb : ∀ o ∈ bbook, ¬(o.price = p ∧ o.side = sd))
    (mbook : List Bitmex.Order) (i : Nat) (hm : ∀ o ∈ mbook, o.id ≠ i)
    (kbook : Kraken.Book) (hkr : ∀ e ∈ kbook, e.1 ≠ p)
    (asc : Bool) (kl : List Kucoin.Level) (hks : kl.Sorted (keyRel Prod.fst asc))
    (hkl : kl.length ≤ 50) (hka : ∀ e ∈ kl, e.1 ≠ p) :
    Binance.applyChange sd p Binance.zeroSentinel bbook = bbook ∧
    Bitmex.applyDelete i mbook = mbook ∧
    Kraken.kdel p kbook = kbook ∧
    Kucoin.applyChange asc kl p "0" = kl :=
  ⟨Binance.applyChange_absent_noop hb, Bitmex.applyDelete_absent_noop hm,
   Kraken.kdel_absent_noop hkr, Kucoin.applyChange_delete_absent hks hkl hka⟩

/-- Closed instance of C8: deletes at price 100 / id 9, absent from all four
demo books, leave each book unchanged. -/
theorem C8_delete_absent_noop_witness :
    Binance.applyChange "Sell" 100 Binance.zeroSentinel Demo.binSmall = Demo.binSmall ∧
    Bitmex.applyDelete 9 Demo.mexBook1 = Demo.mexBook1 ∧
    Kraken.kdel 100 Demo.krOne = Demo.krOne ∧
    Kucoin.applyChange true Demo.kcOne 100 "0" = Demo.kcOne :=
  C8_delete_absent_noop Demo.binSmall "Sell" 100 (by decide) Demo.mexBook1 9 (by decide)
    Demo.krOne (by decide) true Demo.kcOne (by decide) (by decide) (by decide)

/-- C9: two upserts to the same price in one batch leave only the second
value — applying `u1` then `u2` at one key equals applying `u2` alone — on
every price-keyed venue: unconditionally for the Binance array and the Kraken
object, and for a reachable Kucoin side (sorted, duplicate-free prices, at
most 50 levels) through the re-sort and truncation after each change. -/
theorem C9_last_write_wins
    (bbook : List Binance.Order) (sd : String) (p : ℚ) (q1 q2 : String)
    (hq1 : q1 ≠ Binance.zeroSentinel) (hq2 : q2 ≠ Binance.zeroSentinel)
    (kbook : Kraken.Book) (v1 v2 : String)
    (asc : Bool) (kl : List Kucoin.Level) (s1 s2 : String)
    (hs1 : s1 ≠ "0") (hs2 : s2 ≠ "0")
    (hsor : kl.Sorted (keyRel Prod.fst asc)) (hdis : distinctKeys Prod.fst kl)
    (hlen : kl.length ≤ 50) :
    Binance.applyChange sd p q2 (Binance.applyChange sd p q1 bbook) =
      Binance.applyChange sd p q2 bbook ∧
    Kraken.kset p v2 (Kraken.kset p v1 kbook) = Kraken.kset p v2 kbook ∧
    Kucoin.applyChange asc (Kucoin.applyChange asc kl p s1) p s2 =
      Kucoin.applyChange asc kl p s2 :=
  ⟨Binance.applyChange_upsert_twice hq1, Kraken.kset_kset p v1 v2 kbook,
   Kucoin.applyChange_upsert_lww hs1 hs2 hsor hdis hlen⟩

/-- Closed instance of C9 on the demo books at price 100. -/
theorem C9_last_write_wins_witness :
    Binance.applyChange "Buy" 100 "3" (Binance.applyChange "Buy" 100 "2" Demo.binSmall) =
      Binance.applyChange "Buy" 100 "3" Demo.binSmall ∧
    Kraken.kset 100 "5" (Kraken.kset 100 "4" Demo.krOne) = Kraken.kset 100 "5" Demo.krOne ∧
    Kucoin.applyChange true (Kucoin.applyChange true Demo.kcOne 100 "6") 100 "7" =
      Kucoin.applyChange true Demo.kcOne 100 "7" :=
  C9_last_write_wins Demo.binSmall "Buy" 100 "2" "3" (by decide) (by decide)
    Demo.krOne "4" "5" true Demo.kcOne "6" "7" (by decide) (by decide)
    (by decide) (by decide) (by decide)

/-- C10: deletion fires only on an exact string match with the venue's zero
sentinel (`"0"` for Kucoin, `"0.00000000"` for Binance and Kraken).  Any
other size string — including ones that parse to zero, like `"0.0"` — is
upserted and remains readable at its price (for Kucoin on a side with room,
so the truncation to 50 cannot drop it); the exact sentinel removes the
level (for Binance given the one-level-per-price invariant, since only the
first `findIndex` match is spliced).  Concretely, a Kraken `"0.0"` update
leaves a zero-size level that still appears in the rendered projection. -/
theorem C10_exact_sentinel_semantics
    (sd : String) (p : ℚ) (q s v : String)
    (hq : q ≠ Binance.zeroSentinel) (hs : s ≠ "0") (hv : v ≠ Kraken.zeroSentinel)
    (bbook : List Binance.Order) (hgb : Binance.goodBook bbook)
    (kbook : Kraken.Book) (hkd : distinctKeys Prod.fst kbook)
    (asc : Bool) (kl : List Kucoin.Level) (hdis : distinctKeys Prod.fst kl)
    (hlen : kl.length < 50) :
    Binance.sideLookup sd p (Binance.applyChange sd p q bbook) = some q ∧
    priceLookup p (Kraken.applyChange kbook (p, v)) = some v ∧
    priceLookup p (Kucoin.applyChange asc kl p s) = some s ∧
    Binance.sideLookup sd p (Binance.applyChange sd p Binance.zeroSentinel bbook) = none ∧
    priceLookup p (Kraken.applyChange kbook (p, Kraken.zeroSentinel)) = none ∧
    priceLookup p (Kucoin.applyChange asc kl p "0") = none ∧
    Kraken.projectSide true 10 (Kraken.applyChange [(100, "1")] (100, "0.0")) =
      [(100, "0.0")] := by
  refine ⟨Binance.sideLookup_applyChange_upsert hq, ?_,
    Kucoin.priceLookup_applyChange_upsert hs hdis hlen,
    Binance.sideLookup_applyChange_delete hgb, ?_,
    Kucoin.priceLookup_applyChange_delete, by decide⟩
  · unfold Kraken.applyChange
    rw [if_neg hv]
    exact Kraken.priceLookup_kset p v kbook
  · unfold Kraken.applyChange
    rw [if_pos rfl]
    exact Kraken.priceLookup_kdel hkd

/-- Closed instance of C10: the numerically-zero but non-sentinel size
`"0.0"` is stored, the exact sentinels delete. -/
theorem C10_exact_sentinel_semantics_witness :
    Binance.sideLookup "Buy" 100 (Binance.applyChange "Buy" 100 "0.0" Demo.binSmall) =
      some "0.0" ∧
    priceLookup 100 (Kraken.applyChange Demo.krOne (100, "0.0")) = some "0.0" ∧
    priceLookup 100 (Kucoin.applyChange true Demo.kcOne 100 "0.0") = some "0.0" ∧
    Binance.sideLookup "Buy" 100
      (Binance.applyChange "Buy" 100 Binance.zeroSentinel Demo.binSmall) = none ∧
    priceLookup 100 (Kraken.applyChange Demo.krOne (100, Kraken.zeroSentinel)) = none ∧
    priceLookup 100 (Kucoin.applyChange true Demo.kcOne 100 "0") = none ∧
    Kraken.projectSide true 10 (Kraken.applyChange [(100, "1")] (100, "0.0")) =
      [(100, "0.0")] :=
  C10_exact_sentinel_semantics "Buy" 100 "0.0" "0.0" "0.0" (by decide) (by decide)
    (by decide) Demo.binSmall (by decide) Demo.krOne (by decide) true Demo.kcOne
    (by decide) (by decide)

end Connectors
